import Mathlib

/-!
Verification of the save subsystem of the `multipart` crate
(`src/server/save.rs`), via a shallow embedding.

Modelling conventions:
* Bytes are `Nat` values (< 256 in any real stream); a byte buffer is a
  `List Nat`.
* A `BufRead` source is a finite script of fill events (`Reader`): a
  `data` event is the buffer the next `fill_buf` returns (returned again
  until consumed), an `rerr` event is an `io::Error` that `fill_buf`
  returns once.  An exhausted script or an empty `data` buffer means
  end-of-stream (`fill_buf` returns an empty buffer).
* A `Write` sink is a finite script of outcomes of successive `write`
  calls (`WScript`): `ok n` means the call accepted `min n len` bytes
  (a conforming writer never accepts more than the buffer it was given),
  `werr e` means the call failed with `e`.  Past the end of its script a
  writer accepts every write in full (a healthy sink such as `Vec<u8>` or
  a sound file); the bytes actually accepted are accumulated in an `out`
  list which models the destination contents.
* `io::Error` is modelled by `IoErr` (a kind plus a code distinguishing
  distinct errors); `io::ErrorKind::Interrupted` is the `interrupted`
  kind, which the copy loops retry.
* A Rust `String` is represented by its UTF-8 bytes, so
  `SavedData::Text` carries the byte list and `String::from_utf8`
  succeeding is `utf8Valid` of those bytes.
-/

/-- Model of `io::ErrorKind` (only the kinds the module distinguishes). -/
inductive ErrKind
  | interrupted
  | writeZero
  | invalidData
  | other
deriving DecidableEq, Repr

/-- Model of `io::Error`: a kind plus a code distinguishing distinct errors. -/
structure IoErr where
  kind : ErrKind
  code : Nat
deriving DecidableEq, Repr

/-- `PartialReason` from save.rs: why a save operation quit partway. -/
inductive PartialReason
  | CountLimit
  | SizeLimit
  | IoError (e : IoErr)
deriving DecidableEq, Repr

/-- The ternary `SaveResult<S, P>` type from save.rs. -/
inductive SaveResult (S P : Type)
  | Full (s : S)
  | Partial (p : P) (reason : PartialReason)
  | Error (e : IoErr)
deriving DecidableEq, Repr

/-- `TextPolicy` from save.rs. -/
inductive TextPolicy
  | Try
  | Force
  | Ignore
deriving DecidableEq, Repr

/-- `SavedData` from save.rs.  `Text` carries the UTF-8 bytes of the Rust
string; `File` carries the path and the size written. -/
inductive SavedData
  | Text (bytes : List Nat)
  | Bytes (bytes : List Nat)
  | File (path : String) (size : Nat)
deriving DecidableEq, Repr

/-- One event of a `BufRead` script: a buffer handed out by `fill_buf`, or
an error returned by `fill_buf`. -/
inductive RStep
  | data (bs : List Nat)
  | rerr (e : IoErr)
deriving DecidableEq, Repr

/-- A `BufRead` source: the script of its fill events. -/
abbrev Reader := List RStep

/-- One outcome of a `write` call: `ok n` accepts `min n len` bytes of the
buffer of length `len` it was handed, `werr e` fails with `e`. -/
inductive WStep
  | ok (n : Nat)
  | werr (e : IoErr)
deriving DecidableEq, Repr

/-- A `Write` sink: the script of its `write` outcomes.  Past the end of
the script every write is accepted in full. -/
abbrev WScript := List WStep

/-- The loop of `try_write_all` (save.rs lines 835-861) with its running
`total_copied` accumulator.  Returns the result, the rest of the writer
script, and the destination contents.  The `0 => try_here!(Err(WriteZero))`
arm is the `copied = 0` case; an `Interrupted` error is retried
(`continue`), any other error returns `Error` when nothing was copied yet
and `Partial` otherwise. -/
def try_write_all_aux (buf : List Nat) (w : WScript) (out : List Nat) (total : Nat) :
    (SaveResult Nat Nat) × WScript × List Nat :=
  match buf, w with
  | [], w => (.Full total, w, out)
  | b :: bs, [] => (.Full (total + (b :: bs).length), [], out ++ (b :: bs))
  | b :: bs, .ok n :: rest =>
    let copied := min n (b :: bs).length
    if copied = 0 then
      if total = 0 then (.Error ⟨.writeZero, 0⟩, rest, out)
      else (.Partial total (.IoError ⟨.writeZero, 0⟩), rest, out)
    else
      try_write_all_aux ((b :: bs).drop copied) rest (out ++ (b :: bs).take copied)
        (total + copied)
  | b :: bs, .werr e :: rest =>
    if e.kind = .interrupted then try_write_all_aux (b :: bs) rest out total
    else if total = 0 then (.Error e, rest, out)
    else (.Partial total (.IoError e), rest, out)

/-- `try_write_all` (save.rs lines 835-861): drain `buf` into the writer. -/
def try_write_all (buf : List Nat) (w : WScript) (out : List Nat) :
    (SaveResult Nat Nat) × WScript × List Nat :=
  try_write_all_aux buf w out 0

/-- `BufRead::consume(n)` on the reader script: drops `n` bytes from the
front of the current buffer, dropping the event once exhausted. -/
def consumeR (n : Nat) : Reader → Reader
  | .data bs :: rest => if n < bs.length then .data (bs.drop n) :: rest else rest
  | r => r

/-- One `fill_buf` call without consuming anything (the peek at the end of
`try_copy_limited`): the current buffer, or the pending error. -/
def peek : Reader → Except IoErr (List Nat)
  | [] => .ok []
  | .data bs :: _ => .ok bs
  | .rerr e :: _ => .error e

/-- `Take::fill_buf` truncation: the inner buffer capped at the remaining
take limit (`none` = no `take` adaptor). -/
def takeLim : Option Nat → List Nat → List Nat
  | some l, bs => bs.take l
  | none, bs => bs

/-- `Take::consume`: the remaining take limit after consuming `m` bytes. -/
def decLim : Option Nat → Nat → Option Nat
  | some l, m => some (l - m)
  | none, _ => none

/-- The loop of `try_copy_buf` (save.rs lines 799-833), run against either
the bare reader (`lim = none`) or `src.by_ref().take(limit)`
(`lim = some limit`), with its running `total_copied` accumulator.

`fuel` bounds the number of loop iterations so the definition is
structurally recursive; every iteration either consumes a reader event or
zeroes the take limit (after which the next iteration returns), so the
wrappers below pass `2 * r.length + 2`, which is never exhausted.

Per iteration: `fill_buf` on the take adaptor returns an empty buffer when
the limit is zero (break), otherwise it surfaces the reader's next event:
an `Interrupted` error is retried, another error returns `Error` when
nothing was copied yet and `Partial` otherwise, an empty buffer breaks
(end of stream), and a non-empty buffer (capped at the limit) is handed to
`try_write_all`, after which the written bytes are consumed from the
reader. -/
def try_copy_buf_loop :
    Nat → Option Nat → Reader → WScript → List Nat → Nat →
    (SaveResult Nat Nat) × Reader × WScript × List Nat
  | 0, _, r, w, out, total => (.Full total, r, w, out)
  | fuel + 1, lim, r, w, out, total =>
    if lim = some 0 then (.Full total, r, w, out)
    else
      match r with
      | [] => (.Full total, [], w, out)
      | .rerr e :: rest =>
        if e.kind = .interrupted then try_copy_buf_loop fuel lim rest w out total
        else if total = 0 then (.Error e, rest, w, out)
        else (.Partial total (.IoError e), rest, w, out)
      | .data [] :: rest => (.Full total, .data [] :: rest, w, out)
      | .data (b :: bs) :: rest =>
        match try_write_all (takeLim lim (b :: bs)) w out with
        | (.Full m, w2, out2) =>
          try_copy_buf_loop fuel (decLim lim m) (consumeR m (.data (b :: bs) :: rest))
            w2 out2 (total + m)
        | (.Partial m rsn, w2, out2) =>
          (.Partial (total + m) rsn, consumeR m (.data (b :: bs) :: rest), w2, out2)
        | (.Error e, w2, out2) =>
          (.Partial total (.IoError e), .data (b :: bs) :: rest, w2, out2)

/-- `try_copy_buf` (save.rs lines 799-833): unbounded buffered copy. -/
def try_copy_buf (r : Reader) (w : WScript) (out : List Nat) :
    (SaveResult Nat Nat) × Reader × WScript × List Nat :=
  try_copy_buf_loop (2 * r.length + 2) none r w out 0

/-- `try_copy_limited` (save.rs lines 788-797): copy through
`src.by_ref().take(limit)`, then peek the underlying reader once (without
consuming): an empty buffer means the field ended at the boundary
(`Full`), remaining data means truncation (`Partial(SizeLimit)`), and a
peek error yields `Partial(IoError)`. -/
def try_copy_limited (r : Reader) (w : WScript) (out : List Nat) (limit : Nat) :
    (SaveResult Nat Nat) × Reader × WScript × List Nat :=
  match try_copy_buf_loop (2 * r.length + 2) (some limit) r w out 0 with
  | (.Full copied, r2, w2, out2) =>
    match peek r2 with
    | .ok [] => (.Full copied, r2, w2, out2)
    | .ok (_ :: _) => (.Partial copied .SizeLimit, r2, w2, out2)
    | .error e => (.Partial copied (.IoError e), r2, w2, out2)
  | other => other

example : try_write_all [5, 6] [.ok 1] [] = (.Full 2, [], [5, 6]) := by decide
example : try_copy_buf [.data [7]] [] [] = (.Full 1, [], [], [7]) := by decide
example :
    try_copy_limited [.data [1, 2, 3]] [] [] 2 =
      (.Partial 2 .SizeLimit, [.data [3]], [], [1, 2]) := by decide

/-- `SaveBuilder::write_to` (save.rs lines 388-394): bounded copy when a
size limit is set, unbounded copy otherwise.  `self.savable` is the reader
`r`; the destination is the writer script `w` with contents `out`. -/
def write_to (size_limit : Option Nat) (r : Reader) (w : WScript) (out : List Nat) :
    (SaveResult Nat Nat) × Reader × WScript × List Nat :=
  match size_limit with
  | some limit => try_copy_limited r w out limit
  | none => try_copy_buf r w out

/-- `self.size_limit.map_or(false, |lim| lim < self.memory_threshold)`
(save.rs line 399). -/
def sizeLimitBelowThreshold : Option Nat → Nat → Bool
  | some lim, mt => decide (lim < mt)
  | none, _ => false

/-- `SaveBuilder::save_mem` (save.rs lines 396-409): buffer the field into
memory.  The destination `Vec<u8>` is a perfect writer (empty script) whose
contents are the `out` component.  In the first branch the source reads
`self.write_to(&mut bytes).map(move |_| bytes)`; the declared result type
pairs the buffer with a fully-buffered flag, and since this branch never
touches disk the flag is `true` (the source drops the flag here, a type
slip in this revision).  In the second branch a `Full` bounded copy means
the field ended inside the threshold (fully buffered), a
`Partial(SizeLimit)` means the threshold was hit with data remaining (must
spill), and anything else propagates. -/
def save_mem (size_limit : Option Nat) (memory_threshold : Nat) (r : Reader) :
    (SaveResult (List Nat × Bool) (List Nat)) × Reader :=
  if sizeLimitBelowThreshold size_limit memory_threshold then
    match write_to size_limit r [] [] with
    | (.Full _, r2, _, bytes) => (.Full (bytes, true), r2)
    | (.Partial _ rsn, r2, _, bytes) => (.Partial bytes rsn, r2)
    | (.Error e, r2, _, _) => (.Error e, r2)
  else
    match try_copy_limited r [] [] memory_threshold with
    | (.Full _, r2, _, bytes) => (.Full (bytes, true), r2)
    | (.Partial _ .SizeLimit, r2, _, bytes) => (.Full (bytes, false), r2)
    | (.Partial _ rsn, r2, _, bytes) => (.Partial bytes rsn, r2)
    | (.Error e, r2, _, _) => (.Error e, r2)

/-- A UTF-8 continuation byte. -/
def isCont (b : Nat) : Bool := decide (0x80 ≤ b) && decide (b ≤ 0xBF)

/-- Validity of a byte sequence as UTF-8, exactly the criterion of Rust's
`String::from_utf8` (RFC 3629: no overlongs, no surrogates, at most
U+10FFFF). -/
def utf8Valid : List Nat → Bool
  | [] => true
  | b :: rest =>
    if b < 0x80 then utf8Valid rest
    else if b < 0xC2 then false
    else if b < 0xE0 then
      match rest with
      | b1 :: rest2 => isCont b1 && utf8Valid rest2
      | [] => false
    else if b < 0xF0 then
      match rest with
      | b1 :: b2 :: rest3 =>
        (if b = 0xE0 then decide (0xA0 ≤ b1) && decide (b1 ≤ 0xBF)
         else if b = 0xED then decide (0x80 ≤ b1) && decide (b1 ≤ 0x9F)
         else isCont b1) && isCont b2 && utf8Valid rest3
      | _ => false
    else if b < 0xF5 then
      match rest with
      | b1 :: b2 :: b3 :: rest4 =>
        (if b = 0xF0 then decide (0x90 ≤ b1) && decide (b1 ≤ 0xBF)
         else if b = 0xF4 then decide (0x80 ≤ b1) && decide (b1 ≤ 0x8F)
         else isCont b1) && isCont b2 && isCont b3 && utf8Valid rest4
      | _ => false
    else false

/-- `SaveBuilder::with_path` (save.rs lines 348-379), embedded as the
source is written in this revision:

1. `save_mem`; a `Partial`/`Error` propagates through `try_full!`
   (the `Partial` payload is the byte buffer, embedded as
   `SavedData::Bytes` to fit the declared `FieldSaveResult` type).
2. A fully buffered field returns the raw buffer immediately
   (line 350 `(bytes, true) => return Full(bytes)`, embedded as
   `SavedData::Bytes`) -- note this skips the text policy.
3. Otherwise (spill) the text policy of lines 357-367 is applied to the
   buffered prefix: `Try`/`Force` return `SavedData::Text` on a successful
   UTF-8 decode, `Force` returns an invalid-data `Error` on failure.
4. Remaining bytes spill: `create_dir_all` + `open_opts.open` is the
   `openRes` parameter (`some e` = failure); the already-buffered bytes go
   through `try_write_all` into the file (writer script `fw`), then
   `write_to` streams the rest, `add_size` accumulating the total.

Returns the result, the reader state, and the opened file's contents
(`[]` when no file was written). -/
def with_path (size_limit : Option Nat) (memory_threshold : Nat)
    (text_policy : TextPolicy) (r : Reader) (path : String)
    (openRes : Option IoErr) (fw : WScript) :
    (SaveResult SavedData SavedData) × Reader × List Nat :=
  match save_mem size_limit memory_threshold r with
  | (.Error e, r2) => (.Error e, r2, [])
  | (.Partial bytes rsn, r2) => (.Partial (.Bytes bytes) rsn, r2, [])
  | (.Full (bytes, fully), r2) =>
    if fully then (.Full (.Bytes bytes), r2, [])
    else
      match text_policy, utf8Valid bytes with
      | .Try, true => (.Full (.Text bytes), r2, [])
      | .Force, true => (.Full (.Text bytes), r2, [])
      | .Force, false => (.Error ⟨.invalidData, 0⟩, r2, [])
      | _, _ =>
        match openRes with
        | some e => (.Error e, r2, [])
        | none =>
          match try_write_all bytes fw [] with
          | (.Full sz, fw2, content) =>
            match write_to size_limit r2 fw2 content with
            | (.Full written, r3, _, content2) =>
              (.Full (.File path (sz + written)), r3, content2)
            | (.Partial written rsn, r3, _, content2) =>
              (.Partial (.File path (sz + written)) rsn, r3, content2)
            | (.Error e, r3, _, content2) => (.Error e, r3, content2)
          | (.Partial sz rsn, _, content) => (.Partial (.File path sz) rsn, r2, content)
          | (.Error e, _, content) => (.Error e, r2, content)

/-- `DEFAULT_MEMORY_THRESHOLD` (save.rs line 61): 8 MiB. -/
def DEFAULT_MEMORY_THRESHOLD : Nat := 8 * 1024 * 1024

/-- `SaveDir` (save.rs lines 527-536); a `TempDir` is represented by its
path. -/
inductive SaveDir
  | Temp (path : String)
  | Perm (path : String)
deriving DecidableEq, Repr

/-- `SaveDir::as_path` (save.rs lines 540-546). -/
def SaveDir.as_path : SaveDir → String
  | .Temp p => p
  | .Perm p => p

/-- `SaveDir::is_temporary` (save.rs lines 549-555). -/
def SaveDir.is_temporary : SaveDir → Bool
  | .Temp _ => true
  | .Perm _ => false

/-- `SaveDir::into_path` (save.rs lines 559-566). -/
def SaveDir.into_path : SaveDir → String
  | .Temp p => p
  | .Perm p => p

/-- `SaveDir::keep` (save.rs lines 578-584): `Temp` becomes `Perm` with
the `TempDir`'s path (`tempdir.into_path()`); anything else is returned
unchanged (`old_self => old_self`).  The `&mut self` update is embedded as
a function returning the new value. -/
def SaveDir.keep : SaveDir → SaveDir
  | .Temp p => .Perm (SaveDir.Temp p).into_path
  | .Perm p => .Perm p

/-- `Entries` (save.rs lines 498-505).  The `HashMap<ArcStr,
Vec<SavedField>>` is flattened to the arrival-ordered list of
(field name, saved data) pairs: `mut_files_for(name).push(v)` and the text
push of line 300 both append to it. -/
structure Entries where
  fields : List (String × SavedData)
  save_dir : SaveDir
deriving DecidableEq, Repr

/-- Append one resolved field (`mut_files_for(name).push(data)` / the text
push of save.rs line 300). -/
def Entries.pushField (e : Entries) (name : String) (d : SavedData) : Entries :=
  { e with fields := e.fields ++ [(name, d)] }

/-- `PartialSavedField` (save.rs lines 650-654, plus the `field_name`
written at construction sites): the field being read when the operation
quit; `source` is its body stream in the state the save left it. -/
structure PartialSavedField where
  field_name : String
  source : Reader
  dest : Option SavedData
deriving DecidableEq, Repr

/-- `PartialEntries` (save.rs lines 662-668). -/
structure PartialEntries where
  entries : Entries
  partial_field : Option PartialSavedField
deriving DecidableEq, Repr

/-- The data of one multipart field: a file body stream, or
already-decoded text (its UTF-8 bytes). -/
inductive FieldData
  | file (body : Reader)
  | text (s : List Nat)
deriving DecidableEq, Repr

/-- One `ReadEntry::read_entry` outcome in the field source script; an
exhausted script is `End`. -/
inductive SourceEvent
  | entry (name : String) (data : FieldData)
  | srcerr (e : IoErr)
deriving DecidableEq, Repr

/-- The filesystem/naming environment for a whole-request save, indexed by
the number of file fields saved so far: the random file name
(`rand_filename()`), the outcome of `create_dir_all` + `open` (`some e` =
failure), and the opened file's write behaviour. -/
structure FsEnv where
  name : Nat → String
  openRes : Nat → Option IoErr
  fileW : Nat → WScript

/-- `Path::join`. -/
def joinPath (dir name : String) : String := dir ++ "/" ++ name

/-- `Some(limit) if count >= limit` (save.rs line 253). -/
def countLimitHit : Option Nat → Nat → Bool
  | some limit, count => decide (limit ≤ count)
  | none, _ => false

/-- `SaveBuilder::with_entries` (save.rs lines 234-307), the whole-request
loop.  Per field: end of source gives `Full(entries)`; a source error
gives `Partial` with no partial field; a text field is appended and the
loop continues; a file field first checks the count limit -- if `count >=
limit` the loop stops before touching the body and returns
`Partial(CountLimit)` carrying the untouched body stream and no
destination -- and otherwise runs the single-field save
`file.save().size_limit(self.size_limit).with_dir(&entries.save_dir)`,
which is `with_path` with a random name in the save directory and the
defaults of `SaveBuilder::new` for the remaining options (default memory
threshold, `Try` text policy). -/
def with_entries (size_limit : Option Nat) (count_limit : Option Nat) (env : FsEnv) :
    List SourceEvent → Entries → Nat → SaveResult Entries PartialEntries
  | [], entries, _ => .Full entries
  | .srcerr e :: _, entries, _ => .Partial ⟨entries, none⟩ (.IoError e)
  | .entry name (.text s) :: rest, entries, count =>
    with_entries size_limit count_limit env rest (entries.pushField name (.Text s)) count
  | .entry name (.file body) :: rest, entries, count =>
    if countLimitHit count_limit count then
      .Partial ⟨entries, some ⟨name, body, none⟩⟩ .CountLimit
    else
      match with_path size_limit DEFAULT_MEMORY_THRESHOLD .Try body
          (joinPath entries.save_dir.as_path (env.name count))
          (env.openRes count) (env.fileW count) with
      | (.Full saved, _) =>
        with_entries size_limit count_limit env rest (entries.pushField name saved)
          (count + 1)
      | (.Partial part rsn, body2, _) =>
        .Partial ⟨entries, some ⟨name, body2, some part⟩⟩ rsn
      | (.Error e, body2, _) => .Partial ⟨entries, some ⟨name, body2, none⟩⟩ (.IoError e)

/-- The premise of the count-limit claim, operationalized: run the
`with_entries` loop over a prefix of the source assuming no early exit --
every event is a field and every file field's save returns `Full`.
Returns the accumulated entries and file count, or `none` if the prefix
would exit early.  This mirrors the success path of `with_entries` only;
the claim theorem proves the two agree. -/
def runPre (size_limit : Option Nat) (env : FsEnv) :
    List SourceEvent → Entries → Nat → Option (Entries × Nat)
  | [], entries, count => some (entries, count)
  | .srcerr _ :: _, _, _ => none
  | .entry name (.text s) :: rest, entries, count =>
    runPre size_limit env rest (entries.pushField name (.Text s)) count
  | .entry name (.file body) :: rest, entries, count =>
    match with_path size_limit DEFAULT_MEMORY_THRESHOLD .Try body
        (joinPath entries.save_dir.as_path (env.name count))
        (env.openRes count) (env.fileW count) with
    | (.Full saved, _) =>
      runPre size_limit env rest (entries.pushField name saved) (count + 1)
    | _ => none

/-- Number of file fields in a source prefix. -/
def countFiles : List SourceEvent → Nat
  | [] => 0
  | .entry _ (.file _) :: rest => countFiles rest + 1
  | _ :: rest => countFiles rest

/-- Number of fields (text or file) in a source prefix. -/
def countEntries : List SourceEvent → Nat
  | [] => 0
  | .entry _ _ :: rest => countEntries rest + 1
  | _ :: rest => countEntries rest

/-- `std::fs::OpenOptions`, as the flag record the builder configures. -/
structure OpenOptions where
  read : Bool := false
  write : Bool := false
  append : Bool := false
  truncate : Bool := false
  create : Bool := false
  create_new : Bool := false
deriving DecidableEq, Repr

/-- `SaveBuilder` (save.rs lines 96-103), generic over the savable. -/
structure SaveBuilder (σ : Type) where
  savable : σ
  open_opts : OpenOptions
  size_limit : Option Nat
  count_limit : Option Nat
  memory_threshold : Nat
  text_policy : TextPolicy

/-- `SaveBuilder::new` (save.rs lines 108-120): open options
`.write(true).create_new(true)`, no limits, default threshold, `Try`. -/
def SaveBuilder.new (s : σ) : SaveBuilder σ :=
  { savable := s
    open_opts := { write := true, create_new := true }
    size_limit := none
    count_limit := none
    memory_threshold := DEFAULT_MEMORY_THRESHOLD
    text_policy := .Try }

/-- `SaveBuilder::mod_open_opts` (save.rs lines 134-138): run the caller's
closure on the open options, then force the `write` flag back to `true`. -/
def SaveBuilder.mod_open_opts (b : SaveBuilder σ) (opts_fn : OpenOptions → OpenOptions) :
    SaveBuilder σ :=
  { b with open_opts := { opts_fn b.open_opts with write := true } }

/-- `SaveResult::into_result_strict` (save.rs lines 769-775); `conv` is
the `P: Into<S>` conversion.  Match arms in source order: `Full` is `Ok`,
a `Partial` whose reason is an I/O error and an `Error` are `Err`, and any
other `Partial` is `Ok` of the converted payload. -/
def SaveResult.into_result_strict (conv : P → S) : SaveResult S P → Except IoErr S
  | .Full s => .ok s
  | .Partial _ (.IoError e) => .error e
  | .Error e => .error e
  | .Partial p _ => .ok (conv p)

theorem try_write_all_aux_spec :
    ∀ (w : WScript) (buf out : List Nat) (total : Nat) res w2 out2,
      try_write_all_aux buf w out total = (res, w2, out2) →
      (∀ m, res = .Full m → m = total + buf.length ∧ out2 = out ++ buf) ∧
      (∀ m rsn, res = .Partial m rsn →
        out2.length + total = out.length + m ∧ total ≤ m ∧ m ≤ total + buf.length ∧
        ∃ e, rsn = .IoError e) ∧
      (∀ e, res = .Error e → total = 0 ∧ out2 = out) := by
  intro w
  induction w with
  | nil =>
    intro buf out total res w2 out2 h
    cases buf with
    | nil =>
      simp only [try_write_all_aux, Prod.mk.injEq] at h
      obtain ⟨rfl, rfl, rfl⟩ := h
      refine ⟨?_, ?_, ?_⟩ <;> rintro _ _ <;> simp_all
    | cons b bs =>
      simp only [try_write_all_aux, Prod.mk.injEq] at h
      obtain ⟨rfl, rfl, rfl⟩ := h
      refine ⟨?_, ?_, ?_⟩
      · rintro m hm
        injection hm with hm
        subst hm
        simp
      · rintro m rsn hm
        exact absurd hm (by simp)
      · rintro e he
        exact absurd he (by simp)
  | cons step rest ih =>
    intro buf out total res w2 out2 h
    cases buf with
    | nil =>
      simp only [try_write_all_aux, Prod.mk.injEq] at h
      obtain ⟨rfl, rfl, rfl⟩ := h
      refine ⟨?_, ?_, ?_⟩
      · rintro m hm
        injection hm with hm
        subst hm
        simp
      · rintro m rsn hm
        exact absurd hm (by simp)
      · rintro e he
        exact absurd he (by simp)
    | cons b bs =>
      cases step with
      | ok n =>
        by_cases hc : min n (b :: bs).length = 0
        · by_cases ht : total = 0
          · simp only [try_write_all_aux, hc, ht, if_true, Prod.mk.injEq] at h
            obtain ⟨rfl, rfl, rfl⟩ := h
            refine ⟨?_, ?_, ?_⟩
            · rintro m hm
              exact absurd hm (by simp)
            · rintro m rsn hm
              exact absurd hm (by simp)
            · rintro e he
              exact ⟨ht, rfl⟩
          · simp only [try_write_all_aux, hc, ht, if_true, if_false, Prod.mk.injEq] at h
            obtain ⟨rfl, rfl, rfl⟩ := h
            refine ⟨?_, ?_, ?_⟩
            · rintro m hm
              exact absurd hm (by simp)
            · rintro m rsn hm
              injection hm with hm1 hm2
              subst hm1
              subst hm2
              exact ⟨rfl, le_refl _, Nat.le_add_right _ _, ⟨_, rfl⟩⟩
            · rintro e he
              exact absurd he (by simp)
        · have hle : min n (b :: bs).length ≤ (b :: bs).length := Nat.min_le_right _ _
          simp only [try_write_all_aux, hc, if_false] at h
          obtain ⟨ihF, ihP, ihE⟩ := ih _ _ _ _ _ _ h
          refine ⟨?_, ?_, ?_⟩
          · rintro m hm
            obtain ⟨h1, h2⟩ := ihF m hm
            constructor
            · rw [h1, List.length_drop]
              omega
            · rw [h2, List.append_assoc, List.take_append_drop]
          · rintro m rsn hm
            obtain ⟨h1, h2, h3, h4⟩ := ihP m rsn hm
            rw [List.length_append, List.length_take] at h1
            rw [List.length_drop] at h3
            refine ⟨by omega, by omega, by omega, h4⟩
          · rintro e he
            obtain ⟨h1, -⟩ := ihE e he
            omega
      | werr e =>
        by_cases hk : e.kind = ErrKind.interrupted
        · simp only [try_write_all_aux, hk, if_true] at h
          exact ih _ _ _ _ _ _ h
        · by_cases ht : total = 0
          · simp only [try_write_all_aux, hk, ht, if_true, if_false, Prod.mk.injEq] at h
            obtain ⟨rfl, rfl, rfl⟩ := h
            refine ⟨?_, ?_, ?_⟩
            · rintro m hm
              exact absurd hm (by simp)
            · rintro m rsn hm
              exact absurd hm (by simp)
            · rintro e2 he
              exact ⟨ht, rfl⟩
          · simp only [try_write_all_aux, hk, ht, if_false, Prod.mk.injEq] at h
            obtain ⟨rfl, rfl, rfl⟩ := h
            refine ⟨?_, ?_, ?_⟩
            · rintro m hm
              exact absurd hm (by simp)
            · rintro m rsn hm
              injection hm with hm1 hm2
              subst hm1
              subst hm2
              exact ⟨rfl, le_refl _, Nat.le_add_right _ _, ⟨_, rfl⟩⟩
            · rintro e2 he
              exact absurd he (by simp)

theorem try_copy_buf_loop_spec :
    ∀ (fuel : Nat) (lim : Option Nat) (r : Reader) (w : WScript) (out : List Nat)
      (total : Nat) res r2 w2 out2,
      try_copy_buf_loop fuel lim r w out total = (res, r2, w2, out2) →
      (∀ m, res = .Full m → out2.length + total = out.length + m) ∧
      (∀ m rsn, res = .Partial m rsn →
        out2.length + total = out.length + m ∧ ∃ e, rsn = .IoError e) ∧
      (∀ e, res = .Error e → total = 0 ∧ out2 = out) := by
  intro fuel
  induction fuel with
  | zero =>
    intro lim r w out total res r2 w2 out2 h
    simp only [try_copy_buf_loop, Prod.mk.injEq] at h
    obtain ⟨rfl, rfl, rfl, rfl⟩ := h
    refine ⟨?_, ?_, ?_⟩
    · rintro m hm
      injection hm with hm
      subst hm
      rfl
    · rintro m rsn hm
      exact absurd hm (by simp)
    · rintro e he
      exact absurd he (by simp)
  | succ fuel ih =>
    intro lim r w out total res r2 w2 out2 h
    by_cases hl : lim = some 0
    · simp only [try_copy_buf_loop, hl, if_true, Prod.mk.injEq] at h
      obtain ⟨rfl, rfl, rfl, rfl⟩ := h
      refine ⟨?_, ?_, ?_⟩
      · rintro m hm
        injection hm with hm
        subst hm
        rfl
      · rintro m rsn hm
        exact absurd hm (by simp)
      · rintro e he
        exact absurd he (by simp)
    · cases r with
      | nil =>
        simp only [try_copy_buf_loop, hl, if_false, Prod.mk.injEq] at h
        obtain ⟨rfl, rfl, rfl, rfl⟩ := h
        refine ⟨?_, ?_, ?_⟩
        · rintro m hm
          injection hm with hm
          subst hm
          rfl
        · rintro m rsn hm
          exact absurd hm (by simp)
        · rintro e he
          exact absurd he (by simp)
      | cons ev rest =>
        cases ev with
        | rerr e =>
          by_cases hk : e.kind = ErrKind.interrupted
          · simp only [try_copy_buf_loop, hl, hk, if_true, if_false] at h
            exact ih _ _ _ _ _ _ _ _ _ h
          · by_cases ht : total = 0
            · simp only [try_copy_buf_loop, hl, hk, ht, if_true, if_false,
                Prod.mk.injEq] at h
              obtain ⟨rfl, rfl, rfl, rfl⟩ := h
              refine ⟨?_, ?_, ?_⟩
              · rintro m hm
                exact absurd hm (by simp)
              · rintro m rsn hm
                exact absurd hm (by simp)
              · rintro e2 he
                exact ⟨ht, rfl⟩
            · simp only [try_copy_buf_loop, hl, hk, ht, if_false, Prod.mk.injEq] at h
              obtain ⟨rfl, rfl, rfl, rfl⟩ := h
              refine ⟨?_, ?_, ?_⟩
              · rintro m hm
                exact absurd hm (by simp)
              · rintro m rsn hm
                injection hm with hm1 hm2
                subst hm1
                subst hm2
                exact ⟨rfl, ⟨_, rfl⟩⟩
              · rintro e2 he
                exact absurd he (by simp)
        | data bs0 =>
          cases bs0 with
          | nil =>
            simp only [try_copy_buf_loop, hl, if_false, Prod.mk.injEq] at h
            obtain ⟨rfl, rfl, rfl, rfl⟩ := h
            refine ⟨?_, ?_, ?_⟩
            · rintro m hm
              injection hm with hm
              subst hm
              rfl
            · rintro m rsn hm
              exact absurd hm (by simp)
            · rintro e he
              exact absurd he (by simp)
          | cons b bs =>
            have hchunk : (takeLim lim (b :: bs)).length ≠ 0 := by
              cases lim with
              | none => simp [takeLim]
              | some l =>
                cases l with
                | zero => exact absurd rfl hl
                | succ k => simp [takeLim]
            rcases hw : try_write_all (takeLim lim (b :: bs)) w out with ⟨res0, w0, out0⟩
            obtain ⟨waF, waP, waE⟩ := try_write_all_aux_spec _ _ _ _ _ _ _ hw
            simp only [try_copy_buf_loop, hl, if_false, hw] at h
            cases res0 with
            | Full m =>
              obtain ⟨hm1, hm2⟩ := waF m rfl
              have hout0 : out0.length = out.length + m := by
                rw [hm2, List.length_append]
                omega
              obtain ⟨ihF, ihP, ihE⟩ := ih _ _ _ _ _ _ _ _ _ h
              refine ⟨?_, ?_, ?_⟩
              · rintro m2 hm'
                have := ihF m2 hm'
                omega
              · rintro m2 rsn hm'
                obtain ⟨h1, h2⟩ := ihP m2 rsn hm'
                exact ⟨by omega, h2⟩
              · rintro e he
                obtain ⟨h1, -⟩ := ihE e he
                exact absurd h1 (by omega)
            | Partial m rsn =>
              obtain ⟨h1, h2, h3, h4⟩ := waP m rsn rfl
              simp only [Prod.mk.injEq] at h
              obtain ⟨rfl, rfl, rfl, rfl⟩ := h
              refine ⟨?_, ?_, ?_⟩
              · rintro m2 hm'
                exact absurd hm' (by simp)
              · rintro m2 rsn2 hm'
                injection hm' with hm1 hm2
                subst hm1
                subst hm2
                exact ⟨by omega, h4⟩
              · rintro e he
                exact absurd he (by simp)
            | Error e =>
              obtain ⟨-, h2⟩ := waE e rfl
              simp only [Prod.mk.injEq] at h
              obtain ⟨rfl, rfl, rfl, rfl⟩ := h
              refine ⟨?_, ?_, ?_⟩
              · rintro m2 hm'
                exact absurd hm' (by simp)
              · rintro m2 rsn2 hm'
                injection hm' with hm1 hm2
                subst hm1
                subst hm2
                subst h2
                exact ⟨rfl, ⟨_, rfl⟩⟩
              · rintro e2 he
                exact absurd he (by simp)

theorem try_copy_buf_loop_le :
    ∀ (fuel l : Nat) (r : Reader) (w : WScript) (out : List Nat) (total : Nat)
      res r2 w2 out2,
      try_copy_buf_loop fuel (some l) r w out total = (res, r2, w2, out2) →
      out2.length ≤ out.length + l := by
  intro fuel
  induction fuel with
  | zero =>
    intro l r w out total res r2 w2 out2 h
    simp only [try_copy_buf_loop, Prod.mk.injEq] at h
    obtain ⟨-, -, -, rfl⟩ := h
    omega
  | succ fuel ih =>
    intro l r w out total res r2 w2 out2 h
    by_cases hl0 : l = 0
    · simp only [try_copy_buf_loop, hl0, if_true, Prod.mk.injEq] at h
      obtain ⟨-, -, -, rfl⟩ := h
      omega
    · have hl : ¬((some l : Option Nat) = some 0) := by simp [hl0]
      cases r with
      | nil =>
        simp only [try_copy_buf_loop, hl, if_false, Prod.mk.injEq] at h
        obtain ⟨-, -, -, rfl⟩ := h
        omega
      | cons ev rest =>
        cases ev with
        | rerr e =>
          by_cases hk : e.kind = ErrKind.interrupted
          · simp only [try_copy_buf_loop, hl, hk, if_true, if_false] at h
            exact ih _ _ _ _ _ _ _ _ _ h
          · by_cases ht : total = 0
            · simp only [try_copy_buf_loop, hl, hk, ht, if_true, if_false,
                Prod.mk.injEq] at h
              obtain ⟨-, -, -, rfl⟩ := h
              omega
            · simp only [try_copy_buf_loop, hl, hk, ht, if_false, Prod.mk.injEq] at h
              obtain ⟨-, -, -, rfl⟩ := h
              omega
        | data bs0 =>
          cases bs0 with
          | nil =>
            simp only [try_copy_buf_loop, hl, if_false, Prod.mk.injEq] at h
            obtain ⟨-, -, -, rfl⟩ := h
            omega
          | cons b bs =>
            have hchunk : (takeLim (some l) (b :: bs)).length ≤ l := by
              simp [takeLim]
            rcases hw : try_write_all (takeLim (some l) (b :: bs)) w out
              with ⟨res0, w0, out0⟩
            obtain ⟨waF, waP, waE⟩ := try_write_all_aux_spec _ _ _ _ _ _ _ hw
            simp only [try_copy_buf_loop, hl, if_false, hw] at h
            cases res0 with
            | Full m =>
              obtain ⟨hm1, hm2⟩ := waF m rfl
              have hout0 : out0.length = out.length + m := by
                rw [hm2, List.length_append]
                omega
              have hml : m ≤ l := by omega
              have := ih _ _ _ _ _ _ _ _ _ h
              simp only [decLim] at this
              omega
            | Partial m rsn =>
              obtain ⟨h1, -, h3, -⟩ := waP m rsn rfl
              simp only [Prod.mk.injEq] at h
              obtain ⟨-, -, -, rfl⟩ := h
              omega
            | Error e =>
              obtain ⟨-, h2⟩ := waE e rfl
              simp only [Prod.mk.injEq] at h
              obtain ⟨-, -, -, rfl⟩ := h
              subst h2
              omega

/-- C7: `try_write_all` on a buffer returns `Full` only with a count equal
to the buffer's full length, with the buffer completely drained into the
destination; an interrupted write is retried without losing the running
count; and a write call reporting zero bytes written on a non-empty buffer
is an unretryable short-write I/O failure (`WriteZero`), returned at once
instead of being retried. -/
theorem claim_c7_try_write_all :
    (∀ (buf : List Nat) (w : WScript) (out : List Nat) (m : Nat) w2 out2,
      try_write_all buf w out = (.Full m, w2, out2) →
      m = buf.length ∧ out2 = out ++ buf) ∧
    (∀ (b : Nat) (bs : List Nat) (c : Nat) (rest : WScript) (out : List Nat)
      (total : Nat),
      try_write_all_aux (b :: bs) (.werr ⟨.interrupted, c⟩ :: rest) out total =
        try_write_all_aux (b :: bs) rest out total) ∧
    (∀ (b : Nat) (bs : List Nat) (rest : WScript) (out : List Nat),
      try_write_all (b :: bs) (.ok 0 :: rest) out = (.Error ⟨.writeZero, 0⟩, rest, out)) := by
  refine ⟨?_, ?_, ?_⟩
  · intro buf w out m w2 out2 h
    obtain ⟨waF, -, -⟩ := try_write_all_aux_spec _ _ _ _ _ _ _ h
    obtain ⟨h1, h2⟩ := waF m rfl
    exact ⟨by omega, h2⟩
  · intro b bs c rest out total
    rfl
  · intro b bs rest out
    rfl

theorem claim_c7_try_write_all_witness :
    (2 = ([5, 6] : List Nat).length ∧ ([5, 6] : List Nat) = [] ++ [5, 6]) :=
  claim_c7_try_write_all.1 [5, 6] [.ok 1] [] 2 [] [5, 6] (by decide)

/-- C6: the copy and write primitives return `Error` only when nothing at
all reached the destination (the destination contents are unchanged), and
every `Partial` and `Full` outcome carries exactly the number of bytes
appended to the destination, so an `Error` outcome never carries or hides
partial progress. -/
theorem claim_c6_error_no_progress :
    (∀ (r : Reader) (w : WScript) (out : List Nat) res r2 w2 out2,
      try_copy_buf r w out = (res, r2, w2, out2) →
      (∀ e, res = .Error e → out2 = out) ∧
      (∀ m rsn, res = .Partial m rsn → out2.length = out.length + m) ∧
      (∀ m, res = .Full m → out2.length = out.length + m)) ∧
    (∀ (buf : List Nat) (w : WScript) (out : List Nat) res w2 out2,
      try_write_all buf w out = (res, w2, out2) →
      (∀ e, res = .Error e → out2 = out) ∧
      (∀ m rsn, res = .Partial m rsn → out2.length = out.length + m) ∧
      (∀ m, res = .Full m → out2.length = out.length + m)) := by
  refine ⟨?_, ?_⟩
  · intro r w out res r2 w2 out2 h
    obtain ⟨cF, cP, cE⟩ := try_copy_buf_loop_spec _ _ _ _ _ _ _ _ _ _ h
    refine ⟨?_, ?_, ?_⟩
    · intro e he
      exact (cE e he).2
    · intro m rsn hm
      have := (cP m rsn hm).1
      omega
    · intro m hm
      have := cF m hm
      omega
  · intro buf w out res w2 out2 h
    obtain ⟨waF, waP, waE⟩ := try_write_all_aux_spec _ _ _ _ _ _ _ h
    refine ⟨?_, ?_, ?_⟩
    · intro e he
      exact (waE e he).2
    · intro m rsn hm
      have := (waP m rsn hm).1
      omega
    · intro m hm
      obtain ⟨h1, h2⟩ := waF m hm
      rw [h2, List.length_append]
      omega

theorem claim_c6_error_no_progress_witness :
    ([7] : List Nat).length = ([] : List Nat).length + 1 :=
  ((claim_c6_error_no_progress.1 [.data [7]] [] [] (.Full 1) [] [] [7]
    (by decide)).2.2) 1 rfl

/-- C5: `try_copy_limited` appends at most `N` bytes to the destination,
and every outcome carries exactly the number of bytes copied.  When the
limited copy itself completes, the result is decided by one peek at the
underlying reader without consuming anything: `Full` exactly when no
further byte is available, `Partial(SizeLimit)` exactly when more data
remains, and `Partial(IoError)` when the peek itself fails. -/
theorem claim_c5_try_copy_limited :
    ∀ (r : Reader) (w : WScript) (out : List Nat) (N : Nat) res r2 w2 out2,
      try_copy_limited r w out N = (res, r2, w2, out2) →
      out2.length ≤ out.length + N ∧
      (∀ m, res = .Full m → out2.length = out.length + m ∧ peek r2 = .ok []) ∧
      (∀ m, res = .Partial m .SizeLimit →
        out2.length = out.length + m ∧ ∃ b bs, peek r2 = .ok (b :: bs)) ∧
      (∀ copied rr ww oo,
        try_copy_buf_loop (2 * r.length + 2) (some N) r w out 0 =
          (.Full copied, rr, ww, oo) →
        ∀ e, peek rr = .error e →
          res = .Partial copied (.IoError e) ∧ r2 = rr ∧ out2 = oo) := by
  intro r w out N res r2 w2 out2 h
  rcases hin : try_copy_buf_loop (2 * r.length + 2) (some N) r w out 0
    with ⟨res0, rr0, ww0, oo0⟩
  obtain ⟨cF, cP, cE⟩ := try_copy_buf_loop_spec _ _ _ _ _ _ _ _ _ _ hin
  have hle := try_copy_buf_loop_le _ _ _ _ _ _ _ _ _ _ hin
  simp only [try_copy_limited, hin] at h
  cases res0 with
  | Full copied =>
    have hcnt : oo0.length = out.length + copied := by
      have := cF copied rfl
      omega
    cases hp : peek rr0 with
    | ok bs =>
      cases bs with
      | nil =>
        simp only [hp, Prod.mk.injEq] at h
        obtain ⟨rfl, rfl, rfl, rfl⟩ := h
        refine ⟨hle, ?_, ?_, ?_⟩
        · rintro m hm
          injection hm with hm
          subst hm
          exact ⟨hcnt, hp⟩
        · rintro m hm
          exact absurd hm (by simp)
        · rintro copied2 rr ww oo hin2 e2 hp2
          simp only [Prod.mk.injEq] at hin2
          obtain ⟨h1, h2, h3, h4⟩ := hin2
          injection h1 with h1
          subst h1
          subst h2
          rw [hp] at hp2
          exact absurd hp2 (by simp)
      | cons b bs =>
        simp only [hp, Prod.mk.injEq] at h
        obtain ⟨rfl, rfl, rfl, rfl⟩ := h
        refine ⟨hle, ?_, ?_, ?_⟩
        · rintro m hm
          exact absurd hm (by simp)
        · rintro m hm
          injection hm with hm1 hm2
          subst hm1
          exact ⟨hcnt, b, bs, hp⟩
        · rintro copied2 rr ww oo hin2 e2 hp2
          simp only [Prod.mk.injEq] at hin2
          obtain ⟨h1, h2, h3, h4⟩ := hin2
          injection h1 with h1
          subst h1
          subst h2
          rw [hp] at hp2
          exact absurd hp2 (by simp)
    | error e0 =>
      simp only [hp, Prod.mk.injEq] at h
      obtain ⟨rfl, rfl, rfl, rfl⟩ := h
      refine ⟨hle, ?_, ?_, ?_⟩
      · rintro m hm
        exact absurd hm (by simp)
      · rintro m hm
        injection hm with hm1 hm2
        exact absurd hm2 (by simp)
      · rintro copied2 rr ww oo hin2 e2 hp2
        simp only [Prod.mk.injEq] at hin2
        obtain ⟨h1, h2, h3, h4⟩ := hin2
        injection h1 with h1
        subst h1
        subst h2
        subst h4
        rw [hp] at hp2
        injection hp2 with hp2
        subst hp2
        exact ⟨rfl, rfl, rfl⟩
  | Partial m rsn =>
    simp only [Prod.mk.injEq] at h
    obtain ⟨rfl, rfl, rfl, rfl⟩ := h
    refine ⟨hle, ?_, ?_, ?_⟩
    · rintro m2 hm
      exact absurd hm (by simp)
    · rintro m2 hm
      injection hm with hm1 hm2
      subst hm2
      obtain ⟨-, e0, he0⟩ := cP m .SizeLimit rfl
      exact absurd he0 (by simp)
    · rintro copied2 rr ww oo hin2 e2 hp2
      simp only [Prod.mk.injEq] at hin2
      obtain ⟨h1, -⟩ := hin2
      exact absurd h1 (by simp)
  | Error e =>
    simp only [Prod.mk.injEq] at h
    obtain ⟨rfl, rfl, rfl, rfl⟩ := h
    have hout : oo0 = out := (cE e rfl).2
    refine ⟨by rw [hout]; omega, ?_, ?_, ?_⟩
    · rintro m hm
      exact absurd hm (by simp)
    · rintro m hm
      exact absurd hm (by simp)
    · rintro copied2 rr ww oo hin2 e2 hp2
      simp only [Prod.mk.injEq] at hin2
      obtain ⟨h1, -⟩ := hin2
      exact absurd h1 (by simp)

theorem claim_c5_try_copy_limited_witness :
    ([1, 2] : List Nat).length ≤ ([] : List Nat).length + 2 ∧
      (([1, 2] : List Nat).length = ([] : List Nat).length + 2 ∧
        ∃ b bs, peek [.data [3]] = .ok (b :: bs)) :=
  have h := claim_c5_try_copy_limited [.data [1, 2, 3]] [] [] 2
    (.Partial 2 .SizeLimit) [.data [3]] [] [1, 2] (by decide)
  ⟨h.1, h.2.2.1 2 rfl⟩

theorem runPre_spec :
    ∀ (src : List SourceEvent) (sl : Option Nat) (env : FsEnv) (entries : Entries)
      (count : Nat) entries2 count2,
      runPre sl env src entries count = some (entries2, count2) →
      count2 = count + countFiles src ∧
      entries2.fields.length = entries.fields.length + countEntries src := by
  intro src
  induction src with
  | nil =>
    intro sl env entries count entries2 count2 h
    simp only [runPre, Option.some.injEq, Prod.mk.injEq] at h
    obtain ⟨rfl, rfl⟩ := h
    simp [countFiles, countEntries]
  | cons ev rest ih =>
    intro sl env entries count entries2 count2 h
    cases ev with
    | srcerr e => simp [runPre] at h
    | entry name data =>
      cases data with
      | text s =>
        simp only [runPre] at h
        obtain ⟨h1, h2⟩ := ih _ _ _ _ _ _ h
        simp only [Entries.pushField, List.length_append, List.length_singleton] at h2
        refine ⟨by simpa [countFiles] using h1, ?_⟩
        simp only [countEntries]
        omega
      | file body =>
        rcases hw : with_path sl DEFAULT_MEMORY_THRESHOLD .Try body
            (joinPath entries.save_dir.as_path (env.name count))
            (env.openRes count) (env.fileW count) with ⟨res0, body2, content⟩
        simp only [runPre, hw] at h
        cases res0 with
        | Full saved =>
          obtain ⟨h1, h2⟩ := ih _ _ _ _ _ _ h
          simp only [Entries.pushField, List.length_append, List.length_singleton] at h2
          refine ⟨?_, ?_⟩
          · simp only [countFiles]
            omega
          · simp only [countEntries]
            omega
        | Partial p rsn => simp at h
        | Error e => simp at h

/-- C1: in a whole-request save with `count_limit = K`, if the loop
processes a prefix in which every file field saves fully (`runPre`
reaching file count `K`), then at the next file field the save stops
before touching that field's body: it returns `Partial` with reason
`CountLimit`, whose partial field names that field, carries its body
stream exactly as it arrived (fully unconsumed), and has destination
`none`; the entries returned are exactly those accumulated over the
prefix, containing one record per prefix field, `K` of them file fields. -/
theorem claim_c1_count_limit :
    ∀ (pre : List SourceEvent) (sl : Option Nat) (K : Nat) (env : FsEnv)
      (rest : List SourceEvent) (entries0 : Entries) (count0 : Nat)
      (entries1 : Entries) (name : String) (body : Reader),
      runPre sl env pre entries0 count0 = some (entries1, K) →
      with_entries sl (some K) env (pre ++ .entry name (.file body) :: rest)
          entries0 count0 =
        .Partial ⟨entries1, some ⟨name, body, none⟩⟩ .CountLimit ∧
      K = count0 + countFiles pre ∧
      entries1.fields.length = entries0.fields.length + countEntries pre := by
  intro pre
  induction pre with
  | nil =>
    intro sl K env rest entries0 count0 entries1 name body h
    simp only [runPre, Option.some.injEq, Prod.mk.injEq] at h
    obtain ⟨rfl, rfl⟩ := h
    refine ⟨?_, by simp [countFiles], by simp [countEntries]⟩
    simp [with_entries, countLimitHit]
  | cons ev pre ih =>
    intro sl K env rest entries0 count0 entries1 name body h
    cases ev with
    | srcerr e => simp [runPre] at h
    | entry name0 data0 =>
      cases data0 with
      | text s =>
        simp only [runPre] at h
        obtain ⟨h1, h2, h3⟩ := ih _ _ _ _ _ _ _ name body h
        refine ⟨?_, by simpa [countFiles] using h2, ?_⟩
        · simpa only [List.cons_append, with_entries] using h1
        · simp only [Entries.pushField, List.length_append, List.length_singleton] at h3
          simp only [countEntries]
          omega
      | file body0 =>
        rcases hw : with_path sl DEFAULT_MEMORY_THRESHOLD .Try body0
            (joinPath entries0.save_dir.as_path (env.name count0))
            (env.openRes count0) (env.fileW count0) with ⟨res0, body2, content⟩
        simp only [runPre, hw] at h
        cases res0 with
        | Full saved =>
          obtain ⟨hc, -⟩ := runPre_spec _ _ _ _ _ _ _ h
          obtain ⟨h1, h2, h3⟩ := ih _ _ _ _ _ _ _ name body h
          have hno : countLimitHit (some K) count0 = false := by
            simp only [countLimitHit, decide_eq_false_iff_not]
            omega
          refine ⟨?_, ?_, ?_⟩
          · simp only [List.cons_append, with_entries, hno, Bool.false_eq_true,
              if_false, hw]
            exact h1
          · simp only [countFiles]
            omega
          · simp only [Entries.pushField, List.length_append, List.length_singleton] at h3
            simp only [countEntries]
            omega
        | Partial p rsn => simp at h
        | Error e => simp at h

/-- Concrete environment for the count-limit witness: constant names, all
opens succeed, perfect file writers. -/
def envW : FsEnv := ⟨fun _ => "f", fun _ => none, fun _ => []⟩

theorem claim_c1_count_limit_witness :
    with_entries none (some 1) envW
        ([.entry "a" (.file [.data [1]])] ++ .entry "b" (.file [.data [2]]) :: [])
        ⟨[], .Perm "d"⟩ 0 =
      .Partial ⟨⟨[("a", .Bytes [1])], .Perm "d"⟩, some ⟨"b", [.data [2]], none⟩⟩
        .CountLimit ∧
    1 = 0 + countFiles [.entry "a" (.file [.data [1]])] ∧
    (⟨[("a", .Bytes [1])], .Perm "d"⟩ : Entries).fields.length =
      (⟨[], .Perm "d"⟩ : Entries).fields.length +
        countEntries [.entry "a" (.file [.data [1]])] :=
  claim_c1_count_limit [.entry "a" (.file [.data [1]])] none 1 envW
    [] ⟨[], .Perm "d"⟩ 0 ⟨[("a", .Bytes [1])], .Perm "d"⟩ "b" [.data [2]]
    (by decide)

/-- C8: `into_result_strict` maps `Full` to `Ok`, collapses a `Partial`
into failure exactly when its reason is an I/O error (returning that
error), keeps a `Partial` with a `CountLimit` or `SizeLimit` reason as
`Ok` of the converted payload, and maps `Error` to `Err`. -/
theorem claim_c8_into_result_strict {S P : Type} (conv : P → S) :
    (∀ s : S, SaveResult.into_result_strict conv (.Full s) = .ok s) ∧
    (∀ (p : P) (e : IoErr),
      SaveResult.into_result_strict conv (.Partial p (.IoError e)) = .error e) ∧
    (∀ p : P, SaveResult.into_result_strict conv (.Partial p .CountLimit) =
      .ok (conv p)) ∧
    (∀ p : P, SaveResult.into_result_strict conv (.Partial p .SizeLimit) =
      .ok (conv p)) ∧
    (∀ e : IoErr, SaveResult.into_result_strict conv (.Error e) = .error e) :=
  ⟨fun _ => rfl, fun _ _ => rfl, fun _ => rfl, fun _ => rfl, fun _ => rfl⟩

/-- C9: `SaveDir::keep` turns a temporary directory into a permanent one
with the same path, leaves a permanent one untouched, is idempotent, and
afterwards `is_temporary` is `false`. -/
theorem claim_c9_savedir_keep :
    (∀ p : String, (SaveDir.Temp p).keep = .Perm p) ∧
    (∀ s : SaveDir, s.keep.as_path = s.as_path) ∧
    (∀ p : String, (SaveDir.Perm p).keep = .Perm p) ∧
    (∀ s : SaveDir, s.keep.keep = s.keep) ∧
    (∀ s : SaveDir, s.keep.is_temporary = false) := by
  refine ⟨fun p => rfl, ?_, fun p => rfl, ?_, ?_⟩ <;> intro s <;> cases s <;> rfl

/-- C10: after `mod_open_opts`, the open options' `write` flag is `true`
regardless of what the closure set it to, and every other configuration
field of the builder (`savable`, `size_limit`, `count_limit`,
`memory_threshold`, `text_policy`) is unchanged. -/
theorem claim_c10_mod_open_opts {σ : Type} (b : SaveBuilder σ)
    (opts_fn : OpenOptions → OpenOptions) :
    (b.mod_open_opts opts_fn).open_opts.write = true ∧
    (b.mod_open_opts opts_fn).savable = b.savable ∧
    (b.mod_open_opts opts_fn).size_limit = b.size_limit ∧
    (b.mod_open_opts opts_fn).count_limit = b.count_limit ∧
    (b.mod_open_opts opts_fn).memory_threshold = b.memory_threshold ∧
    (b.mod_open_opts opts_fn).text_policy = b.text_policy :=
  ⟨rfl, rfl, rfl, rfl, rfl, rfl⟩

/-- C2 (code evaluation): `memory_threshold = 2`, `size_limit = 4`,
`Ignore` policy, a single 5-byte field.  The claim requires
`Partial(SizeLimit)` with exactly 4 bytes persisted (the 2 phase-1 bytes
counting against the limit); the code instead streams up to `size_limit`
fresh bytes after the 2 already-buffered ones and returns
`Full(File(path, 5))` with all 5 bytes in the file. -/
theorem claim_c2_size_limit_eval :
    with_path (some 4) 2 .Ignore [.data [1, 2, 3, 4, 5]] "f" none [] =
      (.Full (.File "f" 5), [], [1, 2, 3, 4, 5]) := by decide

/-- C3 (code evaluation): a 2-byte valid-UTF-8 field fully buffered within
`memory_threshold = 10` under the `Force` policy.  The claim requires
`Full(SavedData::Text)`; the code returns the raw buffer
(`Full(SavedData::Bytes)`) because line 350 returns before the text-policy
match. -/
theorem claim_c3_text_policy_eval :
    with_path none 10 .Force [.data [104, 105]] "f" none [] =
      (.Full (.Bytes [104, 105]), [], []) := by decide

/-- C4 (code evaluation): a 3-byte field with `memory_threshold = 2` under
the `Try` policy, so the spill is determined after buffering `[97, 98]`.
The claim requires the content to be treated as opaque bytes and
`Full(File(path, 3))`; the code instead UTF-8-decodes the buffered prefix
and returns `Full(Text [97, 98])`, leaving the third byte unconsumed and
creating no file. -/
theorem claim_c4_spill_eval :
    with_path none 2 .Try [.data [97, 98, 99]] "f" none [] =
      (.Full (.Text [97, 98]), [.data [99]], []) := by decide

theorem try_copy_buf_loop_zero_lim :
    ∀ (fuel : Nat) (r : Reader) (w : WScript) (out : List Nat) (total : Nat),
      try_copy_buf_loop fuel (some 0) r w out total = (.Full total, r, w, out) := by
  intro fuel r w out total
  cases fuel <;> simp [try_copy_buf_loop]

theorem try_copy_buf_loop_fuel_irrel :
    ∀ (r : Reader) (fuel1 fuel2 : Nat) (lim : Option Nat) (w : WScript)
      (out : List Nat) (total : Nat),
      r.length + 2 ≤ fuel1 → r.length + 2 ≤ fuel2 →
      try_copy_buf_loop fuel1 lim r w out total =
        try_copy_buf_loop fuel2 lim r w out total := by
  intro r
  induction r with
  | nil =>
    intro fuel1 fuel2 lim w out total h1 h2
    obtain ⟨a, rfl⟩ : ∃ a, fuel1 = a + 1 := ⟨fuel1 - 1, by omega⟩
    obtain ⟨b, rfl⟩ : ∃ b, fuel2 = b + 1 := ⟨fuel2 - 1, by omega⟩
    by_cases hl : lim = some 0
    · simp [try_copy_buf_loop, hl]
    · simp [try_copy_buf_loop, hl]
  | cons ev rest ih =>
    intro fuel1 fuel2 lim w out total h1 h2
    obtain ⟨a, rfl⟩ : ∃ a, fuel1 = a + 1 := ⟨fuel1 - 1, by omega⟩
    obtain ⟨b, rfl⟩ : ∃ b, fuel2 = b + 1 := ⟨fuel2 - 1, by omega⟩
    simp only [List.length_cons] at h1 h2
    by_cases hl : lim = some 0
    · simp only [try_copy_buf_loop, hl, if_true]
    · cases ev with
      | rerr e =>
        by_cases hk : e.kind = ErrKind.interrupted
        · simp only [try_copy_buf_loop, hl, hk, if_true, if_false]
          exact ih a b lim w out total (by omega) (by omega)
        · simp only [try_copy_buf_loop, hl, hk, if_false]
      | data bs0 =>
        cases bs0 with
        | nil => simp only [try_copy_buf_loop, hl, if_false]
        | cons x xs =>
          rcases hw : try_write_all (takeLim lim (x :: xs)) w out
            with ⟨res0, w0, out0⟩
          simp only [try_copy_buf_loop, hl, if_false, hw]
          cases res0 with
          | Full m =>
            dsimp only
            obtain ⟨waF, -, -⟩ := try_write_all_aux_spec _ _ _ _ _ _ _ hw
            obtain ⟨hm1, -⟩ := waF m rfl
            by_cases hmlen : (x :: xs).length ≤ m
            · have hcons : consumeR m (.data (x :: xs) :: rest) = rest := by
                simp only [consumeR]
                rw [if_neg (by omega)]
              rw [hcons]
              exact ih a b _ w0 out0 (total + m) (by omega) (by omega)
            · have hlim0 : decLim lim m = some 0 := by
                cases lim with
                | none =>
                  simp only [takeLim] at hm1
                  omega
                | some l =>
                  simp only [takeLim, List.length_take] at hm1
                  simp only [decLim, Option.some.injEq]
                  omega
              rw [hlim0, try_copy_buf_loop_zero_lim, try_copy_buf_loop_zero_lim]
          | Partial m rsn => rfl
          | Error e => rfl

theorem try_copy_buf_fuel_sufficient :
    ∀ (fuel : Nat) (r : Reader) (w : WScript) (out : List Nat),
      r.length + 2 ≤ fuel →
      try_copy_buf_loop fuel none r w out 0 = try_copy_buf r w out := by
  intro fuel r w out hf
  exact try_copy_buf_loop_fuel_irrel r fuel (2 * r.length + 2) none w out 0 hf
    (by omega)
